import Mathlib

/-
Verification of the incremental text-segmentation buffer
(`livekit-agents/livekit/agents/tokenize/token_stream.py`,
class `BufferedTokenStream`).

A Python `str` is modelled as its list of code points (`List Char`); Python
slicing `s[i:]` is `List.drop`, `len` is `List.length`, `str.find` is
`strFind`, `str.lstrip` is `lstrip`.  The engine's mutable state (retained
buffer, current segment id, the event channel's queued events and closed
flag) is an explicit `StreamState`; each operation is a state transformer
that also returns the error it raises, if any.
-/

namespace TokenStream

/-- A Python `str`, as its sequence of code points. -/
abbrev Str := List Char

/-- ASCII whitespace as Python's `str.lstrip()` strips it (space, tab,
linefeed, carriage return, vertical tab, form feed).  Non-ASCII Unicode
whitespace is outside the texts modelled here. -/
def isSpaceChar (c : Char) : Bool :=
  c == ' ' || c == '\t' || c == '\n' || c == '\r' || c == '\x0b' || c == '\x0c'

/-- Python `s.lstrip()`. -/
def lstrip (s : Str) : Str :=
  s.dropWhile isSpaceChar

/-- Python `hay.find(needle)`: the least index where `needle` occurs in
`hay`, `none` for Python's `-1`. -/
def strFind (needle : Str) : Str → Option Nat
  | [] => if needle.isPrefixOf ([] : Str) then some 0 else none
  | c :: rest =>
    if needle.isPrefixOf (c :: rest) then some 0
    else (strFind needle rest).map (fun i => i + 1)

/-- A token as the injected tokenizer returns it: bare text (`str`) or text
with explicit start and end offsets (`tuple[str, int, int]`). -/
inductive Tok where
  | bare (text : Str)
  | offs (text : Str) (startOff endOff : Nat)
  deriving DecidableEq, Repr

/-- The token's text (`tok[0]` for the tuple form, `tok` itself otherwise). -/
def Tok.text : Tok → Str
  | .bare t => t
  | .offs t _ _ => t

/-- Modelled from the spec: the Emitted Event value (`TokenData`, defined in
`tokenize/tokenizer.py`, which is outside `src/`): the finalized `token`
text and the opaque `segment_id` grouping it. -/
structure TokenData where
  token : Str
  segmentId : Nat
  deriving DecidableEq, Repr

/-- Construction-time configuration of `BufferedTokenStream`:
`tokenize_fnc`, `min_token_len`, `min_ctx_len`. -/
structure Config where
  tokenize : Str → List Tok
  minTokenLen : Nat
  minCtxLen : Nat

/-- The engine's state.  `buf` is `self._buf`; `events` are the events queued
in the delivery channel in emission order (`send_nowait` appends); `closed`
is the channel's closed flag; `segmentId` is `self._current_segment_id`.
Modelled from the spec: `shortuuid` (in utils, outside `src/`) is an opaque
collision-free id generator, modelled as a counter whose regeneration
increments it, so regenerated ids never repeat; `aio.Chan` (outside `src/`)
is the closable ordered queue the spec describes, modelled as the `events`
list plus the `closed` flag. -/
structure StreamState where
  buf : Str
  segmentId : Nat
  closed : Bool
  events : List TokenData
  deriving DecidableEq, Repr

/-- The state `__init__` establishes: empty buffer, a first segment id, an
open channel with no queued event. -/
def initState : StreamState :=
  { buf := [], segmentId := 0, closed := false, events := [] }

/-- The error `_check_not_closed` raises (`RuntimeError(... is closed)`). -/
inductive StreamError where
  | closed
  deriving DecidableEq, Repr

/-- The bare-text buffer-advancement loop of `push_text`:
`for i, tok in enumerate(buf_toks): tok_i = max(self._buf.find(tok), 0);
self._buf = self._buf[tok_i + len(tok) :].lstrip()`.
Python passes the accumulated token itself to `find`; for a bare token that
is its text (a tuple-form token on this path would raise `TypeError` in
Python and is outside the tokenizer contract modelled here). -/
def advanceBare (buf : Str) : List Tok → Str
  | [] => buf
  | t :: rest =>
    advanceBare (lstrip (buf.drop ((strFind t.text buf).getD 0 + t.text.length))) rest

/-- One accumulator step of `push_text`: `if buf: buf += " "` then
`buf += tok_text`. -/
def accAppend (acc : Str) (tok : Tok) : Str :=
  (if acc = [] then acc else acc ++ [' ']) ++ tok.text

/-- The `while len(tokens) > 1` loop of `push_text`, walking the token list
returned by the single tokenizer call, with the pending accumulator `acc`
(`buf`), the accumulated tokens `bufToks` (`buf_toks`) and the engine state.
On reaching `min_token_len` it emits one event and advances the retained
buffer: by the triggering token's end offset when it carries offsets, else
by `advanceBare` over every accumulated token. -/
def pushLoop (minTokenLen : Nat) : List Tok → List Tok → Str → StreamState → StreamState
  | [], _, _, s => s
  | [_], _, _, s => s
  | tok :: t2 :: rest, bufToks, acc, s =>
    let acc2 := accAppend acc tok
    let bufToks2 := bufToks ++ [tok]
    if minTokenLen ≤ acc2.length then
      let s2 : StreamState :=
        { s with events := s.events ++ [{ token := acc2, segmentId := s.segmentId }] }
      let s3 : StreamState :=
        match tok with
        | .offs _ _ e => { s2 with buf := s2.buf.drop e }
        | .bare _ => { s2 with buf := advanceBare s2.buf bufToks2 }
      pushLoop minTokenLen (t2 :: rest) [] [] s3
    else
      pushLoop minTokenLen (t2 :: rest) bufToks2 acc2 s

/-- The body of `push_text` after the closed-check: append the chunk, return
when the buffer is still below `min_ctx_len`, otherwise tokenize the whole
buffer once and run the emission loop. -/
def pushTextBody (cfg : Config) (s : StreamState) (text : Str) : StreamState :=
  let s1 : StreamState := { s with buf := s.buf ++ text }
  if s1.buf.length < cfg.minCtxLen then s1
  else pushLoop cfg.minTokenLen (cfg.tokenize s1.buf) [] [] s1

/-- `push_text(text)`: `_check_not_closed` raises before any mutation, so on
a closed stream the state is returned unchanged with the error. -/
def pushText (cfg : Config) (s : StreamState) (text : Str) :
    Option StreamError × StreamState :=
  if s.closed then (some .closed, s) else (none, pushTextBody cfg s text)

/-- Python `" ".join(texts)`. -/
def joinSpace : List Str → Str
  | [] => []
  | [t] => t
  | t :: t2 :: rest => t ++ ' ' :: joinSpace (t2 :: rest)

/-- The body of `flush` after the closed-check.  `flush` branches on
`isinstance(tokens[0], tuple)` only to extract each token's text before
joining; both branches join the token texts (a mixed-form list would raise
`TypeError` in Python and is outside the tokenizer contract modelled here).
When tokenization yields nothing the raw buffer is emitted verbatim.  The
segment id is regenerated only after an emission; the buffer is cleared
unconditionally. -/
def flushBody (cfg : Config) (s : StreamState) : StreamState :=
  if s.buf = [] then s
  else
    let tokens := cfg.tokenize s.buf
    let out : Str :=
      match tokens with
      | [] => s.buf
      | t :: rest => joinSpace ((t :: rest).map Tok.text)
    { s with
      events := s.events ++ [{ token := out, segmentId := s.segmentId }],
      segmentId := s.segmentId + 1,
      buf := [] }

/-- `flush()`: closed-check first, then the flush body. -/
def flush (cfg : Config) (s : StreamState) : Option StreamError × StreamState :=
  if s.closed then (some .closed, s) else (none, flushBody cfg s)

/-- `end_input()`: `flush` then close the channel.  When `flush` raises, the
close is never reached and the error propagates. -/
def endInput (cfg : Config) (s : StreamState) : Option StreamError × StreamState :=
  match flush cfg s with
  | (some e, s1) => (some e, s1)
  | (none, s1) => (none, { s1 with closed := true })

/-- `aclose()`: close the channel without flushing. -/
def aclose (s : StreamState) : StreamState :=
  { s with closed := true }

/-- Spec 4.1's buffer-advancement rule for offset-free tokens, stated from
the spec's words over token texts: per accumulated token, locate its first
occurrence in the current buffer (a miss counts as offset 0), cut the buffer
just past that occurrence and strip leading whitespace. -/
def specAdvanceBare (buf : Str) : List Str → Str
  | [] => buf
  | t :: rest => specAdvanceBare (lstrip (buf.drop ((strFind t buf).getD 0 + t.length))) rest

/-- Spec 4.1's buffer-advancement rule, stated from the spec's words: an
offset-bearing triggering token slices the buffer at its end offset; bare
tokens advance the buffer once per accumulated token text. -/
def specAdvance (buf : Str) (lastTok : Tok) (accTexts : List Str) : Str :=
  match lastTok with
  | .offs _ _ e => buf.drop e
  | .bare _ => specAdvanceBare buf accTexts

/-- A concrete offset-reporting whitespace tokenizer (scanner over the input
with its position), used to exercise the engine at concrete inputs. -/
def wsOffsAux : List Char → Nat → Str → Nat → List Tok
  | [], _, [], _ => []
  | [], i, c :: cs, st => [Tok.offs ((c :: cs).reverse) st i]
  | ch :: rest, i, cur, st =>
    if ch = ' ' then
      match cur with
      | [] => wsOffsAux rest (i + 1) [] (i + 1)
      | c :: cs => Tok.offs ((c :: cs).reverse) st i :: wsOffsAux rest (i + 1) [] (i + 1)
    else
      wsOffsAux rest (i + 1) (ch :: cur) (if cur = [] then i else st)

/-- Whitespace tokenization with offsets. -/
def wsOffs (s : Str) : List Tok :=
  wsOffsAux s 0 [] 0

/-- The whitespace tokenizer in bare-text form. -/
def wsBare (s : Str) : List Tok :=
  (wsOffs s).map (fun t => Tok.bare t.text)

/-- Engine configured with the offset whitespace tokenizer,
`min_token_len = 1`, `min_ctx_len = 1`. -/
def wsCfg : Config :=
  { tokenize := wsOffs, minTokenLen := 1, minCtxLen := 1 }

/-- Engine configured with the offset whitespace tokenizer and a large
`min_ctx_len`, used to exercise the below-context early return. -/
def wsCfgCtx : Config :=
  { tokenize := wsOffs, minTokenLen := 1, minCtxLen := 100 }

/-- A concrete open state with a populated retained buffer. -/
def demoState : StreamState :=
  { buf := "ab cd".toList, segmentId := 0, closed := false, events := [] }

/-- One loop iteration that reaches `min_token_len` on an offset-bearing
token: emit the accumulator and slice the current buffer at the token's end
offset. -/
theorem pushLoop_cons_emit_offs (m : Nat) (t : Str) (a e : Nat) (tok2 : Tok)
    (rest bt : List Tok) (acc : Str) (s : StreamState)
    (h : m ≤ (accAppend acc (Tok.offs t a e)).length) :
    pushLoop m (Tok.offs t a e :: tok2 :: rest) bt acc s =
      pushLoop m (tok2 :: rest) [] []
        { s with
          events := s.events ++
            [{ token := accAppend acc (Tok.offs t a e), segmentId := s.segmentId }],
          buf := s.buf.drop e } := by
  simp only [pushLoop, if_pos h]

/-- One loop iteration that reaches `min_token_len` on a bare token: emit the
accumulator and advance the buffer by relocating every accumulated token. -/
theorem pushLoop_cons_emit_bare (m : Nat) (t : Str) (tok2 : Tok)
    (rest bt : List Tok) (acc : Str) (s : StreamState)
    (h : m ≤ (accAppend acc (Tok.bare t)).length) :
    pushLoop m (Tok.bare t :: tok2 :: rest) bt acc s =
      pushLoop m (tok2 :: rest) [] []
        { s with
          events := s.events ++
            [{ token := accAppend acc (Tok.bare t), segmentId := s.segmentId }],
          buf := advanceBare s.buf (bt ++ [Tok.bare t]) } := by
  simp only [pushLoop, if_pos h]

/-- One loop iteration below `min_token_len`: keep accumulating. -/
theorem pushLoop_cons_skip (m : Nat) (tok tok2 : Tok) (rest bt : List Tok)
    (acc : Str) (s : StreamState) (h : ¬ m ≤ (accAppend acc tok).length) :
    pushLoop m (tok :: tok2 :: rest) bt acc s =
      pushLoop m (tok2 :: rest) (bt ++ [tok]) (accAppend acc tok) s := by
  simp only [pushLoop, if_neg h]

/-- The loop never touches the segment identifier. -/
theorem pushLoop_segmentId_eq (m : Nat) :
    ∀ (toks bt : List Tok) (acc : Str) (s : StreamState),
      (pushLoop m toks bt acc s).segmentId = s.segmentId
  | [], _, _, _ => rfl
  | [_], _, _, _ => rfl
  | tok :: t2 :: rest, bt, acc, s => by
    by_cases h : m ≤ (accAppend acc tok).length
    · cases tok with
      | offs t a e =>
        rw [pushLoop_cons_emit_offs m t a e t2 rest bt acc s h,
          pushLoop_segmentId_eq m (t2 :: rest)]
      | bare t =>
        rw [pushLoop_cons_emit_bare m t t2 rest bt acc s h,
          pushLoop_segmentId_eq m (t2 :: rest)]
    · rw [pushLoop_cons_skip m tok t2 rest bt acc s h,
        pushLoop_segmentId_eq m (t2 :: rest)]

/-- The loop never touches the closed flag. -/
theorem pushLoop_closed_eq (m : Nat) :
    ∀ (toks bt : List Tok) (acc : Str) (s : StreamState),
      (pushLoop m toks bt acc s).closed = s.closed
  | [], _, _, _ => rfl
  | [_], _, _, _ => rfl
  | tok :: t2 :: rest, bt, acc, s => by
    by_cases h : m ≤ (accAppend acc tok).length
    · cases tok with
      | offs t a e =>
        rw [pushLoop_cons_emit_offs m t a e t2 rest bt acc s h,
          pushLoop_closed_eq m (t2 :: rest)]
      | bare t =>
        rw [pushLoop_cons_emit_bare m t t2 rest bt acc s h,
          pushLoop_closed_eq m (t2 :: rest)]
    · rw [pushLoop_cons_skip m tok t2 rest bt acc s h,
        pushLoop_closed_eq m (t2 :: rest)]

/-- Every event the loop leaves queued was either already queued or was
emitted by the loop, in which case its text reached `min_token_len` and it
carries the state's segment identifier. -/
theorem pushLoop_events_spec (m : Nat) :
    ∀ (toks bt : List Tok) (acc : Str) (s : StreamState) (e : TokenData),
      e ∈ (pushLoop m toks bt acc s).events →
      e ∈ s.events ∨ (m ≤ e.token.length ∧ e.segmentId = s.segmentId)
  | [], _, _, _, _, h => Or.inl h
  | [_], _, _, _, _, h => Or.inl h
  | tok :: t2 :: rest, bt, acc, s, e, h => by
    by_cases hc : m ≤ (accAppend acc tok).length
    · have step :
          ∀ b : Str, e ∈ s.events ++
              [{ token := accAppend acc tok, segmentId := s.segmentId }] ∨
            (m ≤ e.token.length ∧ e.segmentId = s.segmentId) →
            e ∈ s.events ∨ (m ≤ e.token.length ∧ e.segmentId = s.segmentId) := by
        intro _ hmem
        rcases hmem with hmem | hmem
        · rcases List.mem_append.mp hmem with hold | hnew
          · exact Or.inl hold
          · have he : e = { token := accAppend acc tok, segmentId := s.segmentId } := by
              simpa using hnew
            subst he
            exact Or.inr ⟨hc, rfl⟩
        · exact Or.inr hmem
      cases tok with
      | offs t a ed =>
        rw [pushLoop_cons_emit_offs m t a ed t2 rest bt acc s hc] at h
        exact step s.buf (pushLoop_events_spec m (t2 :: rest) [] [] _ e h)
      | bare t =>
        rw [pushLoop_cons_emit_bare m t t2 rest bt acc s hc] at h
        exact step s.buf (pushLoop_events_spec m (t2 :: rest) [] [] _ e h)
    · rw [pushLoop_cons_skip m tok t2 rest bt acc s hc] at h
      exact pushLoop_events_spec m (t2 :: rest) (bt ++ [tok]) (accAppend acc tok) s e h

/-- Code-side bare advancement agrees with the spec-side rule over the
accumulated tokens' texts. -/
theorem advanceBare_eq_spec :
    ∀ (l : List Tok) (buf : Str), advanceBare buf l = specAdvanceBare buf (l.map Tok.text)
  | [], _ => rfl
  | t :: rest, buf => by
    simp only [advanceBare, List.map, specAdvanceBare]
    exact advanceBare_eq_spec rest _

/-- The loop's result does not depend on the unprocessed final token: that
token is neither accumulated nor emitted. -/
theorem pushLoop_last_irrelevant (m : Nat) :
    ∀ (toks : List Tok) (t t' : Tok) (bt : List Tok) (acc : Str) (s : StreamState),
      pushLoop m (toks ++ [t]) bt acc s = pushLoop m (toks ++ [t']) bt acc s
  | [], _, _, _, _, _ => rfl
  | [x], t, t', bt, acc, s => by
    simp only [List.cons_append, List.nil_append]
    by_cases h : m ≤ (accAppend acc x).length
    · cases x with
      | offs a b c =>
        rw [pushLoop_cons_emit_offs m a b c t [] bt acc s h,
          pushLoop_cons_emit_offs m a b c t' [] bt acc s h]
        rfl
      | bare a =>
        rw [pushLoop_cons_emit_bare m a t [] bt acc s h,
          pushLoop_cons_emit_bare m a t' [] bt acc s h]
        rfl
    · rw [pushLoop_cons_skip m x t [] bt acc s h,
        pushLoop_cons_skip m x t' [] bt acc s h]
      rfl
  | x :: y :: rest, t, t', bt, acc, s => by
    simp only [List.cons_append]
    by_cases h : m ≤ (accAppend acc x).length
    · cases x with
      | offs a b c =>
        rw [pushLoop_cons_emit_offs m a b c y (rest ++ [t]) bt acc s h,
          pushLoop_cons_emit_offs m a b c y (rest ++ [t']) bt acc s h]
        exact pushLoop_last_irrelevant m (y :: rest) t t' [] [] _
      | bare a =>
        rw [pushLoop_cons_emit_bare m a y (rest ++ [t]) bt acc s h,
          pushLoop_cons_emit_bare m a y (rest ++ [t']) bt acc s h]
        exact pushLoop_last_irrelevant m (y :: rest) t t' [] [] _
    · rw [pushLoop_cons_skip m x y (rest ++ [t]) bt acc s h,
        pushLoop_cons_skip m x y (rest ++ [t']) bt acc s h]
      exact pushLoop_last_irrelevant m (y :: rest) t t' (bt ++ [x]) (accAppend acc x) s

/-- Claim C2: whenever a push-path emission occurs, the retained buffer is
advanced exactly by the spec's rule — sliced at the triggering token's end
offset when that token carries offsets, else advanced once per accumulated
token by first-occurrence search (a miss counting as position 0), cutting
past the occurrence and stripping leading whitespace. -/
theorem pushLoop_advancement (m : Nat) (tok t2 : Tok) (rest bufToks : List Tok)
    (acc : Str) (s : StreamState) (h : m ≤ (accAppend acc tok).length) :
    pushLoop m (tok :: t2 :: rest) bufToks acc s =
      pushLoop m (t2 :: rest) [] []
        { s with
          events := s.events ++
            [{ token := accAppend acc tok, segmentId := s.segmentId }],
          buf := specAdvance s.buf tok ((bufToks ++ [tok]).map Tok.text) } := by
  cases tok with
  | offs t a e =>
    rw [pushLoop_cons_emit_offs m t a e t2 rest bufToks acc s h]
    rfl
  | bare t =>
    rw [pushLoop_cons_emit_bare m t t2 rest bufToks acc s h]
    rw [advanceBare_eq_spec (bufToks ++ [Tok.bare t]) s.buf]
    rfl

/-- Witness for C2 at a concrete emission step. -/
theorem pushLoop_advancement_witness :
    pushLoop 1 [Tok.bare ("ab".toList), Tok.bare ("cd".toList)] [] [] demoState =
      pushLoop 1 [Tok.bare ("cd".toList)] [] []
        { demoState with
          events := demoState.events ++
            [{ token := accAppend [] (Tok.bare ("ab".toList)),
               segmentId := demoState.segmentId }],
          buf := specAdvance demoState.buf (Tok.bare ("ab".toList))
            (([] ++ [Tok.bare ("ab".toList)]).map Tok.text) } :=
  pushLoop_advancement 1 (Tok.bare ("ab".toList)) (Tok.bare ("cd".toList)) [] [] []
    demoState (by decide)

/-- Claim C3: a push whose tokenization yields exactly one token emits
nothing, and in general the final token of a push's tokenization pass is
never accumulated or emitted — the loop's outcome is independent of it. -/
theorem push_withholds_last_token :
    (∀ (cfg : Config) (s : StreamState) (text : Str),
        s.closed = false → (cfg.tokenize (s.buf ++ text)).length = 1 →
        ((pushText cfg s text).2).events = s.events) ∧
    (∀ (m : Nat) (toks : List Tok) (t t' : Tok) (bt : List Tok) (acc : Str)
        (s : StreamState),
        pushLoop m (toks ++ [t]) bt acc s = pushLoop m (toks ++ [t']) bt acc s) := by
  constructor
  · intro cfg s text hopen hone
    simp only [pushText, hopen, Bool.false_eq_true, if_false, pushTextBody]
    split
    · rfl
    · obtain ⟨t, ht⟩ := List.length_eq_one.mp hone
      rw [ht]
      rfl
  · exact fun m toks t t' bt acc s => pushLoop_last_irrelevant m toks t t' bt acc s

/-- Claim C4: every event queued by a push call (as opposed to already
queued before it) has token text of length at least `min_token_len`,
joining spaces included. -/
theorem pushText_min_token_len (cfg : Config) (s : StreamState) (text : Str)
    (e : TokenData) (h : e ∈ ((pushText cfg s text).2).events) :
    e ∈ s.events ∨ cfg.minTokenLen ≤ e.token.length := by
  by_cases hc : s.closed
  · simp only [pushText, hc, if_true] at h
    exact Or.inl h
  · simp only [pushText, hc, Bool.false_eq_true, if_false, pushTextBody] at h
    revert h
    split
    · exact fun h => Or.inl h
    · intro h
      rcases pushLoop_events_spec cfg.minTokenLen _ [] [] _ e h with hold | ⟨hlen, _⟩
      · exact Or.inl hold
      · exact Or.inr hlen

/-- Witness for C4: the first event of a concrete push. -/
theorem pushText_min_token_len_witness :
    ({ token := "ab".toList, segmentId := 0 } : TokenData) ∈ initState.events ∨
      wsCfg.minTokenLen ≤ (("ab".toList : Str)).length :=
  pushText_min_token_len wsCfg initState ("ab cd ef".toList)
    { token := "ab".toList, segmentId := 0 } (by decide)

/-- Claim C5: flush on an open stream with a non-empty retained buffer emits
exactly one event — the re-tokenized buffer's tokens joined by single spaces,
or the raw buffer when tokenization yields nothing — with the current
segment identifier, then rotates the identifier and clears the buffer. -/
theorem flush_nonempty_emits (cfg : Config) (s : StreamState)
    (hopen : s.closed = false) (hbuf : s.buf ≠ []) :
    flush cfg s =
      (none,
        { s with
          events := s.events ++
            [{ token :=
                match cfg.tokenize s.buf with
                | [] => s.buf
                | t :: rest => joinSpace ((t :: rest).map Tok.text),
               segmentId := s.segmentId }],
          segmentId := s.segmentId + 1,
          buf := [] }) := by
  simp only [flush, hopen, Bool.false_eq_true, if_false, flushBody, if_neg hbuf]

/-- Witness for C5 on a concrete buffer. -/
theorem flush_nonempty_emits_witness :
    flush wsCfg demoState =
      (none,
        { demoState with
          events := demoState.events ++
            [{ token :=
                match wsCfg.tokenize demoState.buf with
                | [] => demoState.buf
                | t :: rest => joinSpace ((t :: rest).map Tok.text),
               segmentId := demoState.segmentId }],
          segmentId := demoState.segmentId + 1,
          buf := [] }) :=
  flush_nonempty_emits wsCfg demoState rfl (by decide)

/-- Claim C6: push never changes the live segment identifier and stamps
every event it emits with it; flush stamps its event with the pre-rotation
identifier; an emitting flush rotates to an identifier different from that
of every queued event; and both operations preserve the invariant that
queued events carry identifiers no newer than the live one. -/
theorem segment_grouping :
    (∀ (cfg : Config) (s : StreamState) (text : Str),
        ((pushText cfg s text).2).segmentId = s.segmentId) ∧
    (∀ (cfg : Config) (s : StreamState) (text : Str) (e : TokenData),
        e ∈ ((pushText cfg s text).2).events →
          e ∈ s.events ∨ e.segmentId = s.segmentId) ∧
    (∀ (cfg : Config) (s : StreamState) (e : TokenData),
        e ∈ ((flush cfg s).2).events → e ∈ s.events ∨ e.segmentId = s.segmentId) ∧
    (∀ (cfg : Config) (s : StreamState),
        s.closed = false → s.buf ≠ [] →
        (∀ e ∈ s.events, e.segmentId ≤ s.segmentId) →
        ((flush cfg s).2).segmentId ≠ s.segmentId ∧
          ∀ e ∈ ((flush cfg s).2).events,
            e.segmentId ≠ ((flush cfg s).2).segmentId) ∧
    (∀ (cfg : Config) (s : StreamState) (text : Str),
        (∀ e ∈ s.events, e.segmentId ≤ s.segmentId) →
        ∀ e ∈ ((pushText cfg s text).2).events,
          e.segmentId ≤ ((pushText cfg s text).2).segmentId) ∧
    (∀ (cfg : Config) (s : StreamState),
        (∀ e ∈ s.events, e.segmentId ≤ s.segmentId) →
        ∀ e ∈ ((flush cfg s).2).events,
          e.segmentId ≤ ((flush cfg s).2).segmentId) := by
  have hpushSeg : ∀ (cfg : Config) (s : StreamState) (text : Str),
      ((pushText cfg s text).2).segmentId = s.segmentId := by
    intro cfg s text
    by_cases hc : s.closed
    · simp [pushText, hc]
    · simp only [pushText, hc, Bool.false_eq_true, if_false, pushTextBody]
      split
      · rfl
      · rw [pushLoop_segmentId_eq]
  have hpushEv : ∀ (cfg : Config) (s : StreamState) (text : Str) (e : TokenData),
      e ∈ ((pushText cfg s text).2).events →
        e ∈ s.events ∨ e.segmentId = s.segmentId := by
    intro cfg s text e h
    by_cases hc : s.closed
    · simp only [pushText, hc, if_true] at h
      exact Or.inl h
    · simp only [pushText, hc, Bool.false_eq_true, if_false, pushTextBody] at h
      revert h
      split
      · exact fun h => Or.inl h
      · intro h
        rcases pushLoop_events_spec cfg.minTokenLen _ [] [] _ e h with hold | ⟨_, hid⟩
        · exact Or.inl hold
        · exact Or.inr hid
  have hflushState : ∀ (cfg : Config) (s : StreamState),
      s.closed = false → s.buf ≠ [] →
      (flush cfg s).2 =
        { s with
          events := s.events ++
            [{ token :=
                match cfg.tokenize s.buf with
                | [] => s.buf
                | t :: rest => joinSpace ((t :: rest).map Tok.text),
               segmentId := s.segmentId }],
          segmentId := s.segmentId + 1,
          buf := [] } := by
    intro cfg s hopen hbuf
    simp only [flush, hopen, Bool.false_eq_true, if_false, flushBody, if_neg hbuf]
  have hflushEv : ∀ (cfg : Config) (s : StreamState) (e : TokenData),
      e ∈ ((flush cfg s).2).events → e ∈ s.events ∨ e.segmentId = s.segmentId := by
    intro cfg s e h
    by_cases hc : s.closed
    · simp only [flush, hc, if_true] at h
      exact Or.inl h
    · have hopen : s.closed = false := by
        cases hb : s.closed
        · rfl
        · exact absurd hb hc
      by_cases hbuf : s.buf = []
      · simp only [flush, hopen, Bool.false_eq_true, if_false, flushBody,
          if_pos hbuf] at h
        exact Or.inl h
      · rw [hflushState cfg s hopen hbuf] at h
        rcases List.mem_append.mp h with h1 | h2
        · exact Or.inl h1
        · have he := List.mem_singleton.mp h2
          rw [he]
          exact Or.inr rfl
  refine ⟨hpushSeg, hpushEv, hflushEv, ?_, ?_, ?_⟩
  · intro cfg s hopen hbuf hinv
    rw [hflushState cfg s hopen hbuf]
    refine ⟨Nat.succ_ne_self s.segmentId, ?_⟩
    intro e he
    rcases List.mem_append.mp he with h1 | h2
    · exact Nat.ne_of_lt (Nat.lt_succ_of_le (hinv e h1))
    · have he2 := List.mem_singleton.mp h2
      rw [he2]
      exact Nat.ne_of_lt (Nat.lt_succ_self s.segmentId)
  · intro cfg s text hinv e he
    rw [hpushSeg cfg s text]
    rcases hpushEv cfg s text e he with h1 | h2
    · exact hinv e h1
    · exact Nat.le_of_eq h2
  · intro cfg s hinv e he
    by_cases hc : s.closed
    · simp only [flush, hc, if_true] at he ⊢
      exact hinv e he
    · have hopen : s.closed = false := by
        cases hb : s.closed
        · rfl
        · exact absurd hb hc
      by_cases hbuf : s.buf = []
      · simp only [flush, hopen, Bool.false_eq_true, if_false, flushBody,
          if_pos hbuf] at he ⊢
        exact hinv e he
      · rw [hflushState cfg s hopen hbuf] at he ⊢
        rcases List.mem_append.mp he with h1 | h2
        · exact Nat.le_succ_of_le (hinv e h1)
        · have he2 := List.mem_singleton.mp h2
          rw [he2]
          exact Nat.le_succ s.segmentId

/-- Claim C7: the closed-check raises before any mutation, so a push or
flush on a closed stream fails with the is-closed error and returns the
state unchanged; `end_input` and `aclose` leave the stream closed. -/
theorem closed_rejection :
    (∀ (cfg : Config) (s : StreamState) (text : Str),
        s.closed = true → pushText cfg s text = (some StreamError.closed, s)) ∧
    (∀ (cfg : Config) (s : StreamState),
        s.closed = true → flush cfg s = (some StreamError.closed, s)) ∧
    (∀ (cfg : Config) (s : StreamState), ((endInput cfg s).2).closed = true) ∧
    (∀ s : StreamState, (aclose s).closed = true) := by
  refine ⟨?_, ?_, ?_, ?_⟩
  · intro cfg s text h
    simp [pushText, h]
  · intro cfg s h
    simp [flush, h]
  · intro cfg s
    by_cases hc : s.closed
    · simp [endInput, flush, hc]
    · simp [endInput, flush, hc]
  · intro s
    rfl

/-- Claim C8: a push that leaves the buffer below `min_ctx_len` only appends
the chunk to the retained buffer — no event, no other field changed — and
its outcome does not depend on the injected tokenizer at all. -/
theorem pushText_below_ctx (cfg : Config) (s : StreamState) (text : Str)
    (hopen : s.closed = false) (hlen : (s.buf ++ text).length < cfg.minCtxLen) :
    pushText cfg s text = (none, { s with buf := s.buf ++ text }) ∧
      ∀ f : Str → List Tok,
        pushText { cfg with tokenize := f } s text = pushText cfg s text := by
  have key : ∀ tz : Str → List Tok,
      pushText
          { tokenize := tz, minTokenLen := cfg.minTokenLen, minCtxLen := cfg.minCtxLen }
          s text =
        (none, { s with buf := s.buf ++ text }) := by
    intro tz
    simp only [pushText, hopen, Bool.false_eq_true, if_false, pushTextBody]
    rw [if_pos hlen]
  exact ⟨key cfg.tokenize, fun f => (key f).trans (key cfg.tokenize).symm⟩

/-- Witness for C8: a two-character push against `min_ctx_len = 100`. -/
theorem pushText_below_ctx_witness :
    pushText wsCfgCtx initState ("ab".toList) =
        (none, { initState with buf := initState.buf ++ "ab".toList }) ∧
      ∀ f : Str → List Tok,
        pushText { wsCfgCtx with tokenize := f } initState ("ab".toList) =
          pushText wsCfgCtx initState ("ab".toList) :=
  pushText_below_ctx wsCfgCtx initState ("ab".toList) rfl (by decide)

/-- Claim C9: flush on an open stream with an empty retained buffer emits
nothing, keeps the segment identifier and leaves the state unchanged, so a
second flush right after any flush is such a no-op. -/
theorem flush_empty_noop_idempotent :
    (∀ (cfg : Config) (s : StreamState), s.closed = false → s.buf = [] →
        flush cfg s = (none, s)) ∧
    (∀ (cfg : Config) (s : StreamState), s.closed = false →
        flush cfg ((flush cfg s).2) = (none, (flush cfg s).2)) := by
  have base : ∀ (cfg : Config) (s : StreamState), s.closed = false → s.buf = [] →
      flush cfg s = (none, s) := by
    intro cfg s hopen hb
    simp [flush, flushBody, hopen, hb]
  refine ⟨base, ?_⟩
  intro cfg s hopen
  by_cases hb : s.buf = []
  · rw [base cfg s hopen hb]
    exact base cfg s hopen hb
  · apply base
    · simp [flush, flushBody, hopen, hb]
    · simp [flush, flushBody, hopen, hb]

/-- Claim C10: a push call consults the tokenizer only through its value on
the entry-time buffer — the single tokenization pass — and when two
offset-triggered emissions happen in that one pass, the second slices the
already-shortened buffer with an entry-time end offset, leaving
`(B[e1:])[e2:]` rather than `B[e2:]`; concretely the push of
"ab cd ef" against the offset whitespace tokenizer retains "f",
not the " ef" that slicing the entry buffer at the second end offset
would keep. -/
theorem pushText_tokenize_once_stale_slicing :
    (∀ (f g : Str → List Tok) (mt mc : Nat) (s : StreamState) (text : Str),
        f (s.buf ++ text) = g (s.buf ++ text) →
        pushText { tokenize := f, minTokenLen := mt, minCtxLen := mc } s text =
          pushText { tokenize := g, minTokenLen := mt, minCtxLen := mc } s text) ∧
    (∀ (m : Nat) (t1 t2 : Str) (a1 e1 a2 e2 : Nat) (t3 : Tok) (rest : List Tok)
        (s : StreamState), m ≤ t1.length → m ≤ t2.length →
        pushLoop m (Tok.offs t1 a1 e1 :: Tok.offs t2 a2 e2 :: t3 :: rest) [] [] s =
          pushLoop m (t3 :: rest) [] []
            { s with
              events := s.events ++
                [{ token := t1, segmentId := s.segmentId },
                 { token := t2, segmentId := s.segmentId }],
              buf := (s.buf.drop e1).drop e2 }) ∧
    (((pushText wsCfg initState ("ab cd ef".toList)).2).buf = "f".toList ∧
      ("ab cd ef".toList).drop 5 = " ef".toList) := by
  refine ⟨?_, ?_, by decide⟩
  · intro f g mt mc s text hfg
    by_cases hc : s.closed
    · simp [pushText, hc]
    · simp only [pushText, hc, Bool.false_eq_true, if_false, pushTextBody]
      rw [hfg]
  · intro m t1 t2 a1 e1 a2 e2 t3 rest s h1 h2
    have h1' : m ≤ (accAppend [] (Tok.offs t1 a1 e1)).length := by
      simpa [accAppend, Tok.text] using h1
    rw [pushLoop_cons_emit_offs m t1 a1 e1 (Tok.offs t2 a2 e2) (t3 :: rest) [] [] s h1']
    have h2' : m ≤ (accAppend [] (Tok.offs t2 a2 e2)).length := by
      simpa [accAppend, Tok.text] using h2
    rw [pushLoop_cons_emit_offs m t2 a2 e2 t3 rest [] [] _ h2']
    simp [accAppend, Tok.text]

/-- Claim C1 (failing evaluation): with the offset whitespace tokenizer,
`min_token_len = 1`, `min_ctx_len = 1`, pushing the single chunk "ab cd ef"
and ending input emits token texts reassembling to "abcdf", while the batch
tokenization of the same text reassembles to "abcdef": the second in-push
emission sliced the already-shortened buffer with an entry-time offset and
dropped the "e". -/
theorem reassembly_fails_on_stale_offsets :
    ((((endInput wsCfg ((pushText wsCfg initState ("ab cd ef".toList)).2)).2).events.map
        (fun e => e.token)).flatten = "abcdf".toList) ∧
    (((wsOffs ("ab cd ef".toList)).map Tok.text).flatten = "abcdef".toList) ∧
    (("abcdf".toList : Str) ≠ "abcdef".toList) := by
  decide

end TokenStream
